import Mathlib

/-!
Verification of the thruster control-allocation core (`thruster_ctrl.py`):
the actuator model, the counterbalance operation, the greedy pivot rounds
with the early-stop rule, and the final normalization.

Python floats are modelled as rationals (exact arithmetic); the registry
(an insertion-ordered dict) is modelled as a list whose positions serve as
the unique identifiers; Python exceptions are modelled by an error component
carried next to the state, so that the state at the moment of an exception
is observable.
-/

namespace ThrusterCtrl

/-- One thruster: fixed torque/thrust coefficients and a mutable throttle
(`Thruster` dataclass, fields `torque`, `thrust`, `throttle`). -/
structure Thruster where
  torque : ℚ
  thrust : ℚ
  throttle : ℚ := 0
deriving DecidableEq, Repr

/-- `sign` from the source: `-1 if num < 0 else 1` (zero maps to `+1`). -/
def sign (num : ℚ) : ℤ :=
  if num < 0 then -1 else 1

/-- `Thruster.current_torque`: `torque * throttle`. -/
def Thruster.current_torque (t : Thruster) : ℚ := t.torque * t.throttle

/-- `Thruster.current_thrust`: `thrust * throttle`. -/
def Thruster.current_thrust (t : Thruster) : ℚ := t.thrust * t.throttle

/-- Failure modes of the script.  `counterbalanceDivByZero` and
`degenerateSolution` are the two `ZeroDivisionError` sites (the division in
`increase_throttle_to_counterbalance` and the normalization division);
`noUnallocatedActuators` and `emptyRegistryMax` are the `ValueError`s raised
by `min`/`max` on an empty sequence.  `insufficientActuators` is named by the
spec only and is produced by no code path. -/
inductive AllocError where
  | insufficientActuators
  | noUnallocatedActuators
  | degenerateSolution
  | counterbalanceDivByZero
  | emptyRegistryMax
deriving DecidableEq, Repr

/-- `Thruster.increase_throttle_to_counterbalance` (lines 27-35).  Returns
the updated thruster, the returned torque value, and the error component:
`some counterbalanceDivByZero` models the `ZeroDivisionError` raised by
`abs(torque) / abs(self.torque)` when `self.torque == 0`, before any
mutation (so the thruster and torque come back unchanged there). -/
def Thruster.increase_throttle_to_counterbalance (t : Thruster) (torque : ℚ) :
    Thruster × ℚ × Option AllocError :=
  if t.throttle = 1 ∨ sign t.torque = sign torque then (t, torque, none)
  else if t.torque = 0 then (t, torque, some .counterbalanceDivByZero)
  else
    let req := |torque| / |t.torque|
    let t' := { t with throttle := t.throttle + req }
    (t', torque + (t'.current_torque - t.current_torque), none)

/-- The registry: insertion-ordered actuators, identified by position. -/
abbrev Registry := List Thruster

/-- Module-level `current_torque`: sum of per-thruster torques in order. -/
def current_torque (reg : Registry) : ℚ :=
  reg.foldl (fun acc t => acc + t.current_torque) 0

/-- Module-level `current_thrust`: sum of per-thruster thrusts in order. -/
def current_thrust (reg : Registry) : ℚ :=
  reg.foldl (fun acc t => acc + t.current_thrust) 0

/-- Pair every thruster with its identifier (position), starting at `i`. -/
def enumFromIdx : Nat → Registry → List (Nat × Thruster)
  | _, [] => []
  | i, t :: ts => (i, t) :: enumFromIdx (i + 1) ts

/-- `unallocated_thrusters` (lines 69-70): identifiers whose thruster has
`throttle < 1.0`, in registry order (each id carried with its thruster). -/
def unallocated_thrusters (reg : Registry) : List (Nat × Thruster) :=
  (enumFromIdx 0 reg).filter (fun p => p.2.throttle < 1)

/-- Python `min(xs, key=|torque|)` fold: the first minimiser wins ties. -/
def minByAbsTorque : List (Nat × Thruster) → Nat × Thruster → Nat × Thruster
  | [], best => best
  | p :: ps, best =>
      minByAbsTorque ps (if |p.2.torque| < |best.2.torque| then p else best)

/-- `find_smallest_mag_torque_thruster` (lines 73-76): `min` over the
unallocated thrusters by `abs(torque)`; `none` is the `ValueError` raised
by `min` on an empty sequence. -/
def find_smallest_mag_torque_thruster (reg : Registry) :
    Option (Nat × Thruster) :=
  match unallocated_thrusters reg with
  | [] => none
  | p :: ps => some (minByAbsTorque ps p)

/-- The counterbalance loop of `iterate_once` (lines 100-107): walk the
registry in order; the lazy `unallocated_thrusters()` filter skips any
thruster whose throttle is `>= 1` at visit time, the loop breaks as soon as
the remaining torque is zero, thrusters whose torque sign matches the
remaining torque's sign are skipped, and every other thruster receives an
`increase_throttle_to_counterbalance` call whose result becomes the new
remaining torque. -/
def counterbalance_walk : Registry → ℚ → Registry × ℚ × Option AllocError
  | [], torque => ([], torque, none)
  | t :: ts, torque =>
    if 1 ≤ t.throttle then
      let (rs, r, e) := counterbalance_walk ts torque
      (t :: rs, r, e)
    else if torque = 0 then (t :: ts, torque, none)
    else if sign t.torque = sign torque then
      let (rs, r, e) := counterbalance_walk ts torque
      (t :: rs, r, e)
    else
      match t.increase_throttle_to_counterbalance torque with
      | (t', torque', none) =>
        let (rs, r, e) := counterbalance_walk ts torque'
        (t' :: rs, r, e)
      | (t', _, some e) => (t' :: ts, torque, some e)

/-- `iterate_once` (lines 91-107): pick the smallest-magnitude unallocated
pivot, commit it to throttle 1, recompute the net torque, then run the
counterbalance walk. -/
def iterate_once (reg : Registry) : Registry × Option AllocError :=
  match find_smallest_mag_torque_thruster reg with
  | none => (reg, some .noUnallocatedActuators)
  | some (i, t) =>
    let reg1 := reg.set i { t with throttle := 1 }
    let res := counterbalance_walk reg1 (current_torque reg1)
    (res.1, res.2.2)

/-- The module-level round loop (lines 121-126): up to the fuel bound, run
`iterate_once` and stop right after the first round whose resulting net
torque is nonzero.  Also returns how many rounds were entered. -/
def allocation_rounds : Nat → Registry → Registry × Nat × Option AllocError
  | 0, reg => (reg, 0, none)
  | n + 1, reg =>
    match iterate_once reg with
    | (reg1, some e) => (reg1, 1, some e)
    | (reg1, none) =>
      if current_torque reg1 ≠ 0 then (reg1, 1, none)
      else
        let res := allocation_rounds n reg1
        (res.1, res.2.1 + 1, res.2.2)

/-- `current_max_throttle` (lines 112-114): the largest throttle in the
registry; `none` is the `ValueError` raised by `max` over an empty dict. -/
def current_max_throttle (reg : Registry) : Option ℚ :=
  match reg with
  | [] => none
  | t :: ts => some (ts.foldl (fun m x => max m x.throttle) t.throttle)

/-- The normalization loop (lines 130-132): divide every throttle by the
maximum; `degenerateSolution` models the `ZeroDivisionError` the first
division raises when the maximum is zero (before any assignment, so the
registry comes back unchanged). -/
def normalize (reg : Registry) : Registry × Option AllocError :=
  match current_max_throttle reg with
  | none => (reg, some .emptyRegistryMax)
  | some m =>
    if m = 0 then (reg, some .degenerateSolution)
    else (reg.map (fun t => { t with throttle := t.throttle / m }), none)

/-- The whole module-level solve (lines 121-132): at most `len - 1`
allocation rounds with the early stop, then normalization. -/
def solve (reg : Registry) : Registry × Option AllocError :=
  match allocation_rounds (reg.length - 1) reg with
  | (reg1, _, some e) => (reg1, some e)
  | (reg1, _, none) => normalize reg1

/-- A registry as delivered by the external builder: one thruster per
`(torque_coeff, thrust_coeff)` input, every throttle starting at `0`. -/
def mkRegistry (inputs : List (ℚ × ℚ)) : Registry :=
  inputs.map (fun p => { torque := p.1, thrust := p.2, throttle := 0 })

/-- The immutable part of a thruster: its two coefficients. -/
def Thruster.coeffs (t : Thruster) : ℚ × ℚ := (t.torque, t.thrust)

/-! ### Lemmas about `sign` -/

theorem sign_eq_neg_one_iff {x : ℚ} : sign x = -1 ↔ x < 0 := by
  by_cases hx : x < 0
  · rw [sign, if_pos hx]
    simp [hx]
  · rw [sign, if_neg hx]
    constructor
    · intro h
      exact absurd h (by decide)
    · intro h
      exact absurd h hx

theorem sign_eq_one_iff {x : ℚ} : sign x = 1 ↔ 0 ≤ x := by
  by_cases hx : x < 0
  · rw [sign, if_pos hx]
    constructor
    · intro h
      exact absurd h (by decide)
    · intro h
      exact absurd hx (not_lt.mpr h)
  · rw [sign, if_neg hx]
    simp [le_of_not_lt hx]

theorem sign_cases (x : ℚ) : sign x = -1 ∨ sign x = 1 := by
  unfold sign
  split <;> simp

/-! ### Lemmas about the counterbalance operation -/

theorem cb_noop {t : Thruster} {r : ℚ}
    (h : t.throttle = 1 ∨ sign t.torque = sign r) :
    t.increase_throttle_to_counterbalance r = (t, r, none) := by
  unfold Thruster.increase_throttle_to_counterbalance
  rw [if_pos h]

theorem cb_err {t : Thruster} {r : ℚ}
    (h : ¬(t.throttle = 1 ∨ sign t.torque = sign r)) (h0 : t.torque = 0) :
    t.increase_throttle_to_counterbalance r =
      (t, r, some .counterbalanceDivByZero) := by
  unfold Thruster.increase_throttle_to_counterbalance
  rw [if_neg h, if_pos h0]

theorem cb_update {t : Thruster} {r : ℚ}
    (h : ¬(t.throttle = 1 ∨ sign t.torque = sign r)) (h0 : t.torque ≠ 0) :
    t.increase_throttle_to_counterbalance r =
      ({ t with throttle := t.throttle + |r| / |t.torque| },
        r + (t.torque * (t.throttle + |r| / |t.torque|) -
          t.torque * t.throttle), none) := by
  unfold Thruster.increase_throttle_to_counterbalance
  rw [if_neg h, if_neg h0]
  rfl

theorem cb_exact {t : Thruster} {r : ℚ}
    (h1 : t.throttle ≠ 1) (h2 : sign t.torque ≠ sign r) (h0 : t.torque ≠ 0) :
    t.increase_throttle_to_counterbalance r =
      ({ t with throttle := t.throttle + |r| / |t.torque| }, 0, none) := by
  have hg : ¬(t.throttle = 1 ∨ sign t.torque = sign r) := by
    intro hc
    rcases hc with hc | hc
    · exact h1 hc
    · exact h2 hc
  rw [cb_update hg h0]
  have key : r + (t.torque * (t.throttle + |r| / |t.torque|) -
      t.torque * t.throttle) = 0 := by
    have expand : t.torque * (t.throttle + |r| / |t.torque|) -
        t.torque * t.throttle = t.torque * (|r| / |t.torque|) := by ring
    rw [expand]
    rcases lt_trichotomy t.torque 0 with hneg | hzero | hpos
    · have hst : sign t.torque = -1 := sign_eq_neg_one_iff.mpr hneg
      have hsr : sign r = 1 := by
        rcases sign_cases r with hs | hs
        · exact absurd (hst.trans hs.symm) h2
        · exact hs
      have hr : 0 ≤ r := sign_eq_one_iff.mp hsr
      rw [abs_of_nonneg hr, abs_of_neg hneg, ← mul_div_assoc, div_neg,
        mul_comm t.torque r, mul_div_assoc, div_self h0, mul_one]
      ring
    · exact absurd hzero h0
    · have hst : sign t.torque = 1 := sign_eq_one_iff.mpr (le_of_lt hpos)
      have hsr : sign r = -1 := by
        rcases sign_cases r with hs | hs
        · exact hs
        · exact absurd (hst.trans hs.symm) h2
      have hr : r < 0 := sign_eq_neg_one_iff.mp hsr
      rw [abs_of_neg hr, abs_of_pos hpos, ← mul_div_assoc,
        mul_comm t.torque (-r), mul_div_assoc, div_self h0, mul_one]
      ring
  rw [key]

theorem cb_frame (t : Thruster) (r : ℚ) :
    (t.increase_throttle_to_counterbalance r).1.coeffs = t.coeffs := by
  unfold Thruster.increase_throttle_to_counterbalance
  split
  · rfl
  · split <;> rfl

theorem cb_nonneg {t : Thruster} (r : ℚ) (h : 0 ≤ t.throttle) :
    0 ≤ (t.increase_throttle_to_counterbalance r).1.throttle := by
  unfold Thruster.increase_throttle_to_counterbalance
  split
  · exact h
  · split
    · exact h
    · have : (0 : ℚ) ≤ |r| / |t.torque| :=
        div_nonneg (abs_nonneg r) (abs_nonneg t.torque)
      simpa using add_nonneg h this

/-! ### Lemmas about the counterbalance walk -/

theorem walk_zero (l : Registry) : counterbalance_walk l 0 = (l, 0, none) := by
  induction l with
  | nil => rfl
  | cons t ts ih =>
    simp only [counterbalance_walk, ih]
    by_cases h1 : 1 ≤ t.throttle
    · simp [h1]
    · simp [h1]

theorem walk_changes_at_most_one (l : Registry) (r : ℚ) :
    ∀ l' r', counterbalance_walk l r = (l', r', none) →
      l' = l ∨ ∃ j w, l' = l.set j w := by
  induction l generalizing r with
  | nil =>
    intro l' r' h
    simp only [counterbalance_walk] at h
    exact Or.inl (congrArg Prod.fst h).symm
  | cons t ts ih =>
    intro l' r' h
    by_cases h1 : 1 ≤ t.throttle
    · rcases hw : counterbalance_walk ts r with ⟨rs, r2, e2⟩
      simp only [counterbalance_walk, if_pos h1, hw] at h
      injection h with hl hrest
      injection hrest with hr2 he
      subst he
      rcases ih r rs r2 hw with h' | ⟨j, w, h'⟩
      · exact Or.inl (by rw [← hl, h'])
      · exact Or.inr ⟨j + 1, w, by rw [← hl, h']; rfl⟩
    · by_cases hr0 : r = 0
      · subst hr0
        rw [walk_zero] at h
        injection h with hl hrest
        exact Or.inl hl.symm
      · by_cases hs : sign t.torque = sign r
        · rcases hw : counterbalance_walk ts r with ⟨rs, r2, e2⟩
          simp only [counterbalance_walk, if_neg h1, if_neg hr0, if_pos hs,
            hw] at h
          injection h with hl hrest
          injection hrest with hr2 he
          subst he
          rcases ih r rs r2 hw with h' | ⟨j, w, h'⟩
          · exact Or.inl (by rw [← hl, h'])
          · exact Or.inr ⟨j + 1, w, by rw [← hl, h']; rfl⟩
        · have hg : ¬(t.throttle = 1 ∨ sign t.torque = sign r) := by
            intro hc
            rcases hc with hc | hc
            · exact h1 (le_of_eq hc.symm)
            · exact hs hc
          by_cases h0 : t.torque = 0
          · simp only [counterbalance_walk, if_neg h1, if_neg hr0, if_neg hs,
              cb_err hg h0] at h
            injection h with hl hrest
            injection hrest with hr2 he
            exact absurd he (by simp)
          · have hne1 : t.throttle ≠ 1 := fun hc => h1 (le_of_eq hc.symm)
            simp only [counterbalance_walk, if_neg h1, if_neg hr0, if_neg hs,
              cb_exact hne1 hs h0, walk_zero] at h
            injection h with hl hrest
            exact Or.inr ⟨0, { t with throttle := t.throttle + |r| / |t.torque| },
              by rw [← hl]; rfl⟩

theorem walk_frame (l : Registry) (r : ℚ) :
    ((counterbalance_walk l r).1).map Thruster.coeffs =
      l.map Thruster.coeffs := by
  induction l generalizing r with
  | nil => rfl
  | cons t ts ih =>
    by_cases h1 : 1 ≤ t.throttle
    · rcases hw : counterbalance_walk ts r with ⟨rs, r2, e2⟩
      have := ih r
      rw [hw] at this
      simp only [counterbalance_walk, if_pos h1, hw, List.map_cons]
      rw [this]
    · by_cases hr0 : r = 0
      · subst hr0
        rw [walk_zero]
      · by_cases hs : sign t.torque = sign r
        · rcases hw : counterbalance_walk ts r with ⟨rs, r2, e2⟩
          have := ih r
          rw [hw] at this
          simp only [counterbalance_walk, if_neg h1, if_neg hr0, if_pos hs,
            hw, List.map_cons]
          rw [this]
        · rcases hcb : t.increase_throttle_to_counterbalance r with ⟨t', r2, e2⟩
          have hcf : t'.coeffs = t.coeffs := by
            have := cb_frame t r
            rw [hcb] at this
            exact this
          cases e2 with
          | none =>
            rcases hw : counterbalance_walk ts r2 with ⟨rs, r3, e3⟩
            have := ih r2
            rw [hw] at this
            simp only [counterbalance_walk, if_neg h1, if_neg hr0, if_neg hs,
              hcb, hw, List.map_cons]
            rw [this, hcf]
          | some e =>
            simp only [counterbalance_walk, if_neg h1, if_neg hr0, if_neg hs,
              hcb, List.map_cons]
            rw [hcf]

theorem walk_nonneg (l : Registry) (r : ℚ)
    (h : ∀ x ∈ l, 0 ≤ x.throttle) :
    ∀ x ∈ (counterbalance_walk l r).1, 0 ≤ x.throttle := by
  induction l generalizing r with
  | nil => simp [counterbalance_walk]
  | cons t ts ih =>
    have ht : 0 ≤ t.throttle := h t (List.mem_cons_self t ts)
    have hts : ∀ x ∈ ts, 0 ≤ x.throttle :=
      fun x hx => h x (List.mem_cons_of_mem t hx)
    by_cases h1 : 1 ≤ t.throttle
    · rcases hw : counterbalance_walk ts r with ⟨rs, r2, e2⟩
      have hrs := ih r hts
      rw [hw] at hrs
      simp only [counterbalance_walk, if_pos h1, hw]
      intro x hx
      rcases List.mem_cons.mp hx with rfl | hx
      · exact ht
      · exact hrs x hx
    · by_cases hr0 : r = 0
      · subst hr0
        rw [walk_zero]
        exact h
      · by_cases hs : sign t.torque = sign r
        · rcases hw : counterbalance_walk ts r with ⟨rs, r2, e2⟩
          have hrs := ih r hts
          rw [hw] at hrs
          simp only [counterbalance_walk, if_neg h1, if_neg hr0, if_pos hs, hw]
          intro x hx
          rcases List.mem_cons.mp hx with rfl | hx
          · exact ht
          · exact hrs x hx
        · rcases hcb : t.increase_throttle_to_counterbalance r with ⟨t', r2, e2⟩
          have ht' : 0 ≤ t'.throttle := by
            have := cb_nonneg r ht
            rw [hcb] at this
            exact this
          cases e2 with
          | none =>
            rcases hw : counterbalance_walk ts r2 with ⟨rs, r3, e3⟩
            have hrs := ih r2 hts
            rw [hw] at hrs
            simp only [counterbalance_walk, if_neg h1, if_neg hr0, if_neg hs,
              hcb, hw]
            intro x hx
            rcases List.mem_cons.mp hx with rfl | hx
            · exact ht'
            · exact hrs x hx
          | some e =>
            simp only [counterbalance_walk, if_neg h1, if_neg hr0, if_neg hs,
              hcb]
            intro x hx
            rcases List.mem_cons.mp hx with rfl | hx
            · exact ht'
            · exact hts x hx

/-! ### Lemmas about enumeration and pivot selection -/

theorem enumFromIdx_mem {l : Registry} :
    ∀ {k i : Nat} {t : Thruster}, (i, t) ∈ enumFromIdx k l →
      ∃ j, i = k + j ∧ l.get? j = some t := by
  induction l with
  | nil =>
    intro k i t h
    simp [enumFromIdx] at h
  | cons a as ih =>
    intro k i t h
    rw [enumFromIdx, List.mem_cons] at h
    rcases h with h | h
    · obtain ⟨hi, ht⟩ := Prod.mk.injEq .. ▸ h
      exact ⟨0, by omega, by simp [← ht]⟩
    · obtain ⟨j, hj, hget⟩ := ih h
      exact ⟨j + 1, by omega, by simpa using hget⟩

theorem enumFromIdx_mem_of_get {l : Registry} :
    ∀ {k j : Nat} {t : Thruster}, l.get? j = some t →
      (k + j, t) ∈ enumFromIdx k l := by
  induction l with
  | nil =>
    intro k j t h
    simp at h
  | cons a as ih =>
    intro k j t h
    cases j with
    | zero =>
      simp at h
      rw [enumFromIdx]
      exact List.mem_cons.mpr (Or.inl (by simp [h]))
    | succ j =>
      simp only [List.get?] at h
      have := ih (k := k + 1) h
      rw [enumFromIdx]
      refine List.mem_cons.mpr (Or.inr ?_)
      have harith : k + (j + 1) = k + 1 + j := by omega
      rw [harith]
      exact this

theorem unalloc_mem {reg : Registry} {i : Nat} {t : Thruster}
    (h : (i, t) ∈ unallocated_thrusters reg) :
    reg.get? i = some t ∧ t.throttle < 1 := by
  unfold unallocated_thrusters at h
  rw [List.mem_filter] at h
  obtain ⟨hm, hf⟩ := h
  simp at hf
  obtain ⟨j, hj, hget⟩ := enumFromIdx_mem hm
  have : i = j := by omega
  subst this
  exact ⟨hget, hf⟩

theorem unalloc_mem_of {reg : Registry} {i : Nat} {t : Thruster}
    (hget : reg.get? i = some t) (ht : t.throttle < 1) :
    (i, t) ∈ unallocated_thrusters reg := by
  unfold unallocated_thrusters
  rw [List.mem_filter]
  constructor
  · have := enumFromIdx_mem_of_get (k := 0) hget
    simpa using this
  · simp [ht]

theorem minBy_le_init : ∀ (ps : List (Nat × Thruster)) (b : Nat × Thruster),
    |(minByAbsTorque ps b).2.torque| ≤ |b.2.torque| := by
  intro ps
  induction ps with
  | nil =>
    intro b
    simp [minByAbsTorque]
  | cons q qs ih =>
    intro b
    rw [minByAbsTorque]
    by_cases h : |q.2.torque| < |b.2.torque|
    · rw [if_pos h]
      exact le_trans (ih q) (le_of_lt h)
    · rw [if_neg h]
      exact ih b

theorem minBy_decomp : ∀ (ps : List (Nat × Thruster)) (b : Nat × Thruster),
    ∃ pre post,
      b :: ps = pre ++ (minByAbsTorque ps b) :: post ∧
      (∀ p ∈ pre, |(minByAbsTorque ps b).2.torque| < |p.2.torque|) ∧
      (∀ p ∈ post, |(minByAbsTorque ps b).2.torque| ≤ |p.2.torque|) := by
  intro ps
  induction ps with
  | nil =>
    intro b
    exact ⟨[], [], rfl, by simp, by simp⟩
  | cons q qs ih =>
    intro b
    rw [minByAbsTorque]
    by_cases h : |q.2.torque| < |b.2.torque|
    · rw [if_pos h]
      obtain ⟨pre, post, heq, hpre, hpost⟩ := ih q
      refine ⟨b :: pre, post, ?_, ?_, hpost⟩
      · rw [List.cons_append, ← heq]
      · intro p hp
        rcases List.mem_cons.mp hp with hpb | hp
        · subst hpb
          exact lt_of_le_of_lt (minBy_le_init qs q) h
        · exact hpre p hp
    · rw [if_neg h]
      obtain ⟨pre, post, heq, hpre, hpost⟩ := ih b
      cases pre with
      | nil =>
        rw [List.nil_append] at heq
        injection heq with h1 h2
        have hb : minByAbsTorque qs b = b := h1.symm
        have hq : post = qs := h2.symm
        refine ⟨[], q :: qs, by rw [List.nil_append, hb], by simp, ?_⟩
        intro p hp
        rcases List.mem_cons.mp hp with hpq | hp
        · subst hpq
          rw [hb]
          exact le_of_not_lt h
        · exact hpost p (hq ▸ hp)
      | cons x pre' =>
        rw [List.cons_append] at heq
        injection heq with h1 h2
        have hqs : qs = pre' ++ minByAbsTorque qs b :: post := h2
        have hbmem : b ∈ x :: pre' := by
          rw [← h1]
          exact List.mem_cons_self b pre'
        have hstrb : |(minByAbsTorque qs b).2.torque| < |b.2.torque| :=
          hpre b hbmem
        refine ⟨b :: q :: pre', post, ?_, ?_, hpost⟩
        · rw [List.cons_append, List.cons_append, ← hqs]
        · intro p hp
          rcases List.mem_cons.mp hp with hpb | hp
          · subst hpb
            exact hstrb
          · rcases List.mem_cons.mp hp with hpq | hp
            · subst hpq
              exact lt_of_lt_of_le hstrb (le_of_not_lt h)
            · exact hpre p (List.mem_cons_of_mem x hp)

theorem find_spec {reg : Registry} {i : Nat} {t : Thruster}
    (h : find_smallest_mag_torque_thruster reg = some (i, t)) :
    ∃ pre post,
      unallocated_thrusters reg = pre ++ (i, t) :: post ∧
      (∀ p ∈ pre, |t.torque| < |p.2.torque|) ∧
      (∀ p ∈ post, |t.torque| ≤ |p.2.torque|) := by
  unfold find_smallest_mag_torque_thruster at h
  rcases hu : unallocated_thrusters reg with _ | ⟨p, ps⟩
  · rw [hu] at h
    exact absurd h (by simp)
  · rw [hu] at h
    have hm : minByAbsTorque ps p = (i, t) := Option.some.inj h
    obtain ⟨pre, post, heq, hpre, hpost⟩ := minBy_decomp ps p
    rw [hm] at heq hpre hpost
    exact ⟨pre, post, heq, hpre, hpost⟩

theorem find_mem {reg : Registry} {i : Nat} {t : Thruster}
    (h : find_smallest_mag_torque_thruster reg = some (i, t)) :
    reg.get? i = some t ∧ t.throttle < 1 := by
  obtain ⟨pre, post, heq, -, -⟩ := find_spec h
  apply unalloc_mem
  rw [heq]
  exact List.mem_append.mpr (Or.inr (List.mem_cons_self _ _))

/-! ### Lemmas about `List.set` and `iterate_once` -/

theorem set_map_coeffs :
    ∀ (l : Registry) (i : Nat) (t v : Thruster), l.get? i = some t →
      v.coeffs = t.coeffs →
      (l.set i v).map Thruster.coeffs = l.map Thruster.coeffs := by
  intro l
  induction l with
  | nil =>
    intro i t v h _
    simp at h
  | cons a as ih =>
    intro i t v h hc
    cases i with
    | zero =>
      simp at h
      simp [List.set, hc, h]
    | succ i =>
      simp only [List.get?] at h
      simp [List.set, ih i t v h hc]

theorem iterate_frame (reg : Registry) :
    ((iterate_once reg).1).map Thruster.coeffs = reg.map Thruster.coeffs := by
  rcases hf : find_smallest_mag_torque_thruster reg with _ | ⟨i, t⟩
  · simp [iterate_once, hf]
  · obtain ⟨hget, -⟩ := find_mem hf
    simp only [iterate_once, hf]
    rw [walk_frame]
    exact set_map_coeffs reg i t _ hget rfl

theorem iterate_nonneg (reg : Registry) (h : ∀ x ∈ reg, 0 ≤ x.throttle) :
    ∀ x ∈ (iterate_once reg).1, 0 ≤ x.throttle := by
  rcases hf : find_smallest_mag_torque_thruster reg with _ | ⟨i, t⟩
  · simpa [iterate_once, hf] using h
  · simp only [iterate_once, hf]
    apply walk_nonneg
    intro x hx
    rcases List.mem_or_eq_of_mem_set hx with hx | rfl
    · exact h x hx
    · exact zero_le_one

theorem iterate_structure (reg reg' : Registry)
    (h : iterate_once reg = (reg', none)) :
    ∃ i t, find_smallest_mag_torque_thruster reg = some (i, t) ∧
      ∃ j w, reg' = (reg.set i { t with throttle := 1 }).set j w := by
  rcases hf : find_smallest_mag_torque_thruster reg with _ | ⟨i, t⟩
  · simp [iterate_once, hf] at h
  · simp only [iterate_once, hf] at h
    rcases hw : counterbalance_walk (reg.set i { t with throttle := 1 })
        (current_torque (reg.set i { t with throttle := 1 })) with ⟨rs, r2, e2⟩
    rw [hw] at h
    injection h with hl he
    subst he
    refine ⟨i, t, rfl, ?_⟩
    rcases walk_changes_at_most_one _ _ rs r2 hw with hcase | ⟨j, w, hcase⟩
    · exact ⟨i, { t with throttle := 1 }, by
        rw [← hl, hcase, List.set_set]⟩
    · exact ⟨j, w, by rw [← hl, hcase]⟩

/-! ### Lemmas about the round loop -/

theorem rounds_count (n : Nat) (reg : Registry) :
    (allocation_rounds n reg).2.1 ≤ n := by
  induction n generalizing reg with
  | zero => simp [allocation_rounds]
  | succ n ih =>
    rcases hi : iterate_once reg with ⟨reg1, e⟩
    cases e with
    | some err => simp [allocation_rounds, hi]
    | none =>
      by_cases ht : current_torque reg1 ≠ 0
      · simp [allocation_rounds, hi, ht]
      · have := ih reg1
        simp [allocation_rounds, hi, ht]
        omega

theorem rounds_stop (n : Nat) (reg reg1 : Registry)
    (hi : iterate_once reg = (reg1, none))
    (ht : current_torque reg1 ≠ 0) :
    allocation_rounds (n + 1) reg = (reg1, 1, none) := by
  simp [allocation_rounds, hi, ht]

theorem rounds_frame (n : Nat) (reg : Registry) :
    ((allocation_rounds n reg).1).map Thruster.coeffs =
      reg.map Thruster.coeffs := by
  induction n generalizing reg with
  | zero => rfl
  | succ n ih =>
    rcases hi : iterate_once reg with ⟨reg1, e⟩
    have hframe := iterate_frame reg
    rw [hi] at hframe
    cases e with
    | some err =>
      simp only [allocation_rounds, hi]
      exact hframe
    | none =>
      by_cases ht : current_torque reg1 ≠ 0
      · simp only [allocation_rounds, hi, if_pos ht]
        exact hframe
      · simp only [allocation_rounds, hi, if_neg ht]
        exact (ih reg1).trans hframe

theorem rounds_nonneg (n : Nat) (reg : Registry)
    (h : ∀ x ∈ reg, 0 ≤ x.throttle) :
    ∀ x ∈ (allocation_rounds n reg).1, 0 ≤ x.throttle := by
  induction n generalizing reg with
  | zero => simpa [allocation_rounds] using h
  | succ n ih =>
    rcases hi : iterate_once reg with ⟨reg1, e⟩
    have hnn := iterate_nonneg reg h
    rw [hi] at hnn
    cases e with
    | some err =>
      simp only [allocation_rounds, hi]
      exact hnn
    | none =>
      by_cases ht : current_torque reg1 ≠ 0
      · simp only [allocation_rounds, hi, if_pos ht]
        exact hnn
      · simp only [allocation_rounds, hi, if_neg ht]
        exact ih reg1 hnn

/-! ### Lemmas about the maximum throttle and normalization -/

theorem foldl_max_ge_init (l : Registry) :
    ∀ b : ℚ, b ≤ l.foldl (fun m x => max m x.throttle) b := by
  induction l with
  | nil =>
    intro b
    simp
  | cons t ts ih =>
    intro b
    rw [List.foldl_cons]
    exact le_trans (le_max_left b t.throttle) (ih (max b t.throttle))

theorem foldl_max_ge_mem (l : Registry) :
    ∀ (b : ℚ) (t : Thruster), t ∈ l →
      t.throttle ≤ l.foldl (fun m x => max m x.throttle) b := by
  induction l with
  | nil =>
    intro b t h
    simp at h
  | cons a as ih =>
    intro b t h
    rw [List.foldl_cons]
    rcases List.mem_cons.mp h with rfl | h
    · exact le_trans (le_max_right b t.throttle)
        (foldl_max_ge_init as (max b t.throttle))
    · exact ih (max b a.throttle) t h

theorem foldl_max_attained (l : Registry) :
    ∀ b : ℚ, l.foldl (fun m x => max m x.throttle) b = b ∨
      ∃ t ∈ l, l.foldl (fun m x => max m x.throttle) b = t.throttle := by
  induction l with
  | nil =>
    intro b
    exact Or.inl rfl
  | cons a as ih =>
    intro b
    rw [List.foldl_cons]
    rcases ih (max b a.throttle) with h | ⟨t, ht, h⟩
    · rcases le_total b a.throttle with hba | hba
      · exact Or.inr ⟨a, List.mem_cons_self a as, by rw [h, max_eq_right hba]⟩
      · exact Or.inl (by rw [h, max_eq_left hba])
    · exact Or.inr ⟨t, List.mem_cons_of_mem a ht, h⟩

theorem max_throttle_spec {reg : Registry} {m : ℚ}
    (h : current_max_throttle reg = some m) :
    (∀ t ∈ reg, t.throttle ≤ m) ∧ ∃ t ∈ reg, t.throttle = m := by
  rcases reg with _ | ⟨t0, ts⟩
  · simp [current_max_throttle] at h
  · simp only [current_max_throttle] at h
    have hm : ts.foldl (fun m x => max m x.throttle) t0.throttle = m :=
      Option.some.inj h
    constructor
    · intro t ht
      rcases List.mem_cons.mp ht with rfl | ht
      · rw [← hm]
        exact foldl_max_ge_init ts t.throttle
      · rw [← hm]
        exact foldl_max_ge_mem ts t0.throttle t ht
    · rcases foldl_max_attained ts t0.throttle with h' | ⟨t, ht, h'⟩
      · exact ⟨t0, List.mem_cons_self t0 ts, by rw [← hm, h']⟩
      · exact ⟨t, List.mem_cons_of_mem t0 ht, by rw [← hm, h']⟩

theorem normalize_err_zero {reg : Registry} {m : ℚ}
    (h : current_max_throttle reg = some m) (hz : m = 0) :
    normalize reg = (reg, some .degenerateSolution) := by
  simp [normalize, h, hz]

theorem normalize_ok {reg : Registry} {m : ℚ}
    (h : current_max_throttle reg = some m) (hz : m ≠ 0) :
    normalize reg =
      (reg.map (fun t => { t with throttle := t.throttle / m }), none) := by
  simp [normalize, h, hz]

theorem mk_nonneg (inputs : List (ℚ × ℚ)) :
    ∀ x ∈ mkRegistry inputs, 0 ≤ x.throttle := by
  intro x hx
  unfold mkRegistry at hx
  obtain ⟨p, -, rfl⟩ := List.mem_map.mp hx
  simp

/-! ### The solved registry: normalization bounds -/

theorem solve_ok_bounds (inputs : List (ℚ × ℚ)) (reg' : Registry)
    (h : solve (mkRegistry inputs) = (reg', none)) :
    current_max_throttle reg' = some 1 ∧
      ∀ t ∈ reg', 0 ≤ t.throttle ∧ t.throttle ≤ 1 := by
  unfold solve at h
  rcases hr : allocation_rounds ((mkRegistry inputs).length - 1)
      (mkRegistry inputs) with ⟨reg1, k, e⟩
  rw [hr] at h
  cases e with
  | some err => simp at h
  | none =>
    have h2 : normalize reg1 = (reg', none) := h
    have hnn1 : ∀ x ∈ reg1, 0 ≤ x.throttle := by
      have := rounds_nonneg ((mkRegistry inputs).length - 1)
        (mkRegistry inputs) (mk_nonneg inputs)
      rw [hr] at this
      exact this
    rcases hm : current_max_throttle reg1 with _ | m
    · simp [normalize, hm] at h2
    · by_cases hz : m = 0
      · rw [normalize_err_zero hm hz] at h2
        simp at h2
      · rw [normalize_ok hm hz] at h2
        injection h2 with hl he
        obtain ⟨hle, tm, htm, hteq⟩ := max_throttle_spec hm
        have hmpos : 0 < m := lt_of_le_of_ne (hteq ▸ hnn1 tm htm) (Ne.symm hz)
        have hbounds : ∀ t ∈ reg', 0 ≤ t.throttle ∧ t.throttle ≤ 1 := by
          intro t ht
          rw [← hl] at ht
          obtain ⟨u, hu, rfl⟩ := List.mem_map.mp ht
          constructor
          · exact div_nonneg (hnn1 u hu) hmpos.le
          · exact (div_le_one hmpos).mpr (hle u hu)
        refine ⟨?_, hbounds⟩
        rcases hm' : current_max_throttle reg' with _ | m'
        · rcases reg' with _ | ⟨x, xs⟩
          · exfalso
            have hreg1 : reg1 = [] := List.map_eq_nil_iff.mp hl
            rw [hreg1] at hm
            simp [current_max_throttle] at hm
          · simp [current_max_throttle] at hm'
        · obtain ⟨hle', u', hu', hequ'⟩ := max_throttle_spec hm'
          have h1 : m' ≤ 1 := by
            rw [← hequ']
            exact (hbounds u' hu').2
          have hga : 1 ≤ m' := by
            have htm' : ({ tm with throttle := tm.throttle / m }) ∈ reg' := by
              rw [← hl]
              exact List.mem_map_of_mem _ htm
            have := hle' _ htm'
            simpa [hteq, div_self hz] using this
          exact congrArg some (le_antisymm h1 hga)

theorem normalize_frame (reg : Registry) :
    ((normalize reg).1).map Thruster.coeffs = reg.map Thruster.coeffs := by
  rcases hm : current_max_throttle reg with _ | m
  · simp [normalize, hm]
  · by_cases hz : m = 0
    · simp [normalize, hm, hz]
    · rw [normalize_ok hm hz]
      show (reg.map fun t =>
        ({ t with throttle := t.throttle / m } : Thruster)).map
          Thruster.coeffs = reg.map Thruster.coeffs
      rw [List.map_map]
      rfl

/-! ### The claims -/

/-- C1 counterexample: for the actuator `⟨torque 0, thrust 5, throttle 0⟩`
and `remaining_torque = -1`, the no-op condition fails (`throttle ≠ 1` and
`sign 0 = 1 ≠ -1 = sign (-1)`), yet the call does not return
`remaining_torque + (new - old)`: it raises the unguarded division's
`ZeroDivisionError`, so the claim's "otherwise" branch is not what happens
for every actuator. -/
theorem C1_cex_zero_coeff :
    ¬((⟨0, 5, 0⟩ : Thruster).throttle = 1 ∨
        sign (⟨0, 5, 0⟩ : Thruster).torque = sign (-1 : ℚ)) ∧
    ((⟨0, 5, 0⟩ : Thruster).increase_throttle_to_counterbalance (-1)).2.2 =
      some AllocError.counterbalanceDivByZero :=
  ⟨by norm_num [sign],
    by norm_num [Thruster.increase_throttle_to_counterbalance, sign]⟩

/-- C1 (amended): counterbalance is a no-op returning `remaining_torque`
when `throttle = 1` or `sign torque_coeff = sign remaining_torque`;
otherwise, when `torque_coeff ≠ 0`, it increases the throttle by
`|remaining_torque| / |torque_coeff|` and returns
`remaining_torque + (new_torque - old_torque)`; and when `torque_coeff = 0`
(forced `remaining_torque < 0` there) the unguarded division fails instead
of returning. -/
theorem C1_counterbalance_behavior (t : Thruster) (r : ℚ) :
    ((t.throttle = 1 ∨ sign t.torque = sign r) →
      t.increase_throttle_to_counterbalance r = (t, r, none)) ∧
    (¬(t.throttle = 1 ∨ sign t.torque = sign r) → t.torque ≠ 0 →
      t.increase_throttle_to_counterbalance r =
        ({ t with throttle := t.throttle + |r| / |t.torque| },
          r + (t.torque * (t.throttle + |r| / |t.torque|) -
            t.torque * t.throttle), none)) ∧
    (¬(t.throttle = 1 ∨ sign t.torque = sign r) → t.torque = 0 →
      t.increase_throttle_to_counterbalance r =
        (t, r, some AllocError.counterbalanceDivByZero)) :=
  ⟨fun h => cb_noop h, fun h h0 => cb_update h h0, fun h h0 => cb_err h h0⟩

theorem C1_counterbalance_behavior_witness :
    Thruster.increase_throttle_to_counterbalance ⟨5, 1, 1⟩ 3 =
      (⟨5, 1, 1⟩, 3, none) ∧
    Thruster.increase_throttle_to_counterbalance ⟨2, 1, 0⟩ (-4) =
      (⟨2, 1, 2⟩, 0, none) ∧
    Thruster.increase_throttle_to_counterbalance ⟨0, 1, 0⟩ (-4) =
      (⟨0, 1, 0⟩, -4, some AllocError.counterbalanceDivByZero) :=
  ⟨(C1_counterbalance_behavior ⟨5, 1, 1⟩ 3).1 (Or.inl rfl),
    ((C1_counterbalance_behavior ⟨2, 1, 0⟩ (-4)).2.1 (by norm_num [sign])
      (by norm_num)).trans (by norm_num [Thruster.current_torque]),
    (C1_counterbalance_behavior ⟨0, 1, 0⟩ (-4)).2.2 (by norm_num [sign]) rfl⟩

/-- C2: the solve loop enters the allocation round at most
`len(registry) - 1` times, and stops immediately after the first round
whose resulting net torque is nonzero, however much budget remains. -/
theorem C2_round_budget_and_early_stop :
    (∀ reg : Registry,
      (allocation_rounds (reg.length - 1) reg).2.1 ≤ reg.length - 1) ∧
    (∀ (fuel : Nat) (reg reg1 : Registry),
      iterate_once reg = (reg1, none) → current_torque reg1 ≠ 0 →
      allocation_rounds (fuel + 1) reg = (reg1, 1, none)) :=
  ⟨fun reg => rounds_count _ _,
    fun fuel reg reg1 hi ht => rounds_stop fuel reg reg1 hi ht⟩

theorem C2_round_budget_and_early_stop_witness :
    allocation_rounds (0 + 1) (mkRegistry [(1, 1), (2, 1)]) =
      ([⟨1, 1, 1⟩, ⟨2, 1, 0⟩], 1, none) :=
  C2_round_budget_and_early_stop.2 0 (mkRegistry [(1, 1), (2, 1)])
    [⟨1, 1, 1⟩, ⟨2, 1, 0⟩]
    (by norm_num [solve, allocation_rounds, iterate_once,
    find_smallest_mag_torque_thruster, unallocated_thrusters, enumFromIdx,
    minByAbsTorque, counterbalance_walk,
    Thruster.increase_throttle_to_counterbalance, current_torque,
    Thruster.current_torque, sign, mkRegistry, normalize,
    current_max_throttle])
    (by norm_num [current_torque, Thruster.current_torque])

/-- C3 counterexample: on the size-1 registry built from `(3, 4)`, `solve`
fails with the normalization division-by-zero (the spec's
`DegenerateSolution` condition), not with `InsufficientActuators`: the code
has no upfront size guard. -/
theorem C3_cex_error_kind :
    solve (mkRegistry [(3, 4)]) =
      (mkRegistry [(3, 4)], some AllocError.degenerateSolution) ∧
    AllocError.degenerateSolution ≠ AllocError.insufficientActuators :=
  ⟨by norm_num [solve, allocation_rounds, iterate_once,
    find_smallest_mag_torque_thruster, unallocated_thrusters, enumFromIdx,
    minByAbsTorque, counterbalance_walk,
    Thruster.increase_throttle_to_counterbalance, current_torque,
    Thruster.current_torque, sign, mkRegistry, normalize,
    current_max_throttle], by decide⟩

/-- C3 (amended): for every registry of size 0 or 1, `solve` fails — size 0
with the `max`-of-empty error, size 1 with the normalization
division-by-zero — and no actuator's throttle is changed (the returned
state is the input registry). -/
theorem C3_small_registry_fails_unchanged (inputs : List (ℚ × ℚ))
    (h : inputs.length ≤ 1) :
    (solve (mkRegistry inputs)).1 = mkRegistry inputs ∧
    ((solve (mkRegistry inputs)).2 = some AllocError.emptyRegistryMax ∨
      (solve (mkRegistry inputs)).2 = some AllocError.degenerateSolution) := by
  match inputs, h with
  | [], _ => exact ⟨rfl, Or.inl rfl⟩
  | [p], _ => exact ⟨rfl, Or.inr rfl⟩

theorem C3_small_registry_fails_unchanged_witness :
    (1 : Nat) ≤ 1 ∧
    ((solve (mkRegistry [(7, 2)])).1 = mkRegistry [(7, 2)] ∧
      ((solve (mkRegistry [(7, 2)])).2 = some AllocError.emptyRegistryMax ∨
        (solve (mkRegistry [(7, 2)])).2 =
          some AllocError.degenerateSolution)) :=
  ⟨by decide, C3_small_registry_fails_unchanged [(7, 2)] (by decide)⟩

/-- C4: whenever `solve` succeeds on a built registry, the final maximum
throttle is exactly 1 and every throttle lies in `[0, 1]`. -/
theorem C4_normalization_bounds (inputs : List (ℚ × ℚ)) (reg' : Registry)
    (h : solve (mkRegistry inputs) = (reg', none)) :
    current_max_throttle reg' = some 1 ∧
      ∀ t ∈ reg', 0 ≤ t.throttle ∧ t.throttle ≤ 1 :=
  solve_ok_bounds inputs reg' h

theorem C4_normalization_bounds_witness :
    current_max_throttle [⟨-10, 5, 1⟩, ⟨10, 5, 1⟩] = some 1 ∧
      ∀ t ∈ ([⟨-10, 5, 1⟩, ⟨10, 5, 1⟩] : Registry),
        0 ≤ t.throttle ∧ t.throttle ≤ 1 :=
  C4_normalization_bounds [(-10, 5), (10, 5)] [⟨-10, 5, 1⟩, ⟨10, 5, 1⟩]
    (by norm_num [solve, allocation_rounds, iterate_once,
    find_smallest_mag_torque_thruster, unallocated_thrusters, enumFromIdx,
    minByAbsTorque, counterbalance_walk,
    Thruster.increase_throttle_to_counterbalance, current_torque,
    Thruster.current_torque, sign, mkRegistry, normalize,
    current_max_throttle])

/-- C5: the normalization step's divisor is the maximum throttle over all
actuators (it bounds every throttle and is attained by one); when it is 0
the step fails with the division-by-zero the spec names
`DegenerateSolution`, returning the registry untouched (no throttle vector
with non-number entries is produced); otherwise it divides every throttle
by the maximum. -/
theorem C5_normalize_spec (reg : Registry) (m : ℚ)
    (h : current_max_throttle reg = some m) :
    ((∀ t ∈ reg, t.throttle ≤ m) ∧ ∃ t ∈ reg, t.throttle = m) ∧
    (m = 0 → normalize reg = (reg, some AllocError.degenerateSolution)) ∧
    (m ≠ 0 → normalize reg =
      (reg.map (fun t => { t with throttle := t.throttle / m }), none)) :=
  ⟨max_throttle_spec h, fun hz => normalize_err_zero h hz,
    fun hz => normalize_ok h hz⟩

theorem C5_normalize_spec_witness :
    ((∀ t ∈ ([⟨1, 1, 1/2⟩, ⟨2, 1, 2⟩] : Registry), t.throttle ≤ 2) ∧
      ∃ t ∈ ([⟨1, 1, 1/2⟩, ⟨2, 1, 2⟩] : Registry), t.throttle = 2) ∧
    ((2 : ℚ) = 0 → normalize [⟨1, 1, 1/2⟩, ⟨2, 1, 2⟩] =
      ([⟨1, 1, 1/2⟩, ⟨2, 1, 2⟩], some AllocError.degenerateSolution)) ∧
    ((2 : ℚ) ≠ 0 → normalize [⟨1, 1, 1/2⟩, ⟨2, 1, 2⟩] =
      (([⟨1, 1, 1/2⟩, ⟨2, 1, 2⟩] : Registry).map
        (fun t => { t with throttle := t.throttle / 2 }), none)) :=
  C5_normalize_spec [⟨1, 1, 1/2⟩, ⟨2, 1, 2⟩] 2
    (by norm_num [current_max_throttle])

/-- C6: pivot selection considers exactly the actuators with
`throttle < 1` in registry (insertion) order, and returns the first one of
minimal `|torque_coeff|`: everything before it in that order has strictly
larger magnitude, everything after has magnitude at least as large. -/
theorem C6_pivot_selection (reg : Registry) (i : Nat) (t : Thruster)
    (h : find_smallest_mag_torque_thruster reg = some (i, t)) :
    ((∀ p ∈ unallocated_thrusters reg,
        reg.get? p.1 = some p.2 ∧ p.2.throttle < 1) ∧
      (∀ j u, reg.get? j = some u → u.throttle < 1 →
        (j, u) ∈ unallocated_thrusters reg)) ∧
    ∃ pre post,
      unallocated_thrusters reg = pre ++ (i, t) :: post ∧
      (∀ p ∈ pre, |t.torque| < |p.2.torque|) ∧
      (∀ p ∈ post, |t.torque| ≤ |p.2.torque|) := by
  refine ⟨⟨?_, ?_⟩, find_spec h⟩
  · intro p hp
    rcases p with ⟨j, u⟩
    exact unalloc_mem hp
  · intro j u hget hu
    exact unalloc_mem_of hget hu

theorem C6_pivot_selection_witness :
    ((∀ p ∈ unallocated_thrusters ([⟨5, 1, 0⟩, ⟨-2, 1, 0⟩] : Registry),
        ([⟨5, 1, 0⟩, ⟨-2, 1, 0⟩] : Registry).get? p.1 = some p.2 ∧
          p.2.throttle < 1) ∧
      (∀ j u, ([⟨5, 1, 0⟩, ⟨-2, 1, 0⟩] : Registry).get? j = some u →
        u.throttle < 1 →
        (j, u) ∈ unallocated_thrusters ([⟨5, 1, 0⟩, ⟨-2, 1, 0⟩] : Registry))) ∧
    ∃ pre post,
      unallocated_thrusters ([⟨5, 1, 0⟩, ⟨-2, 1, 0⟩] : Registry) =
        pre ++ (1, ⟨-2, 1, 0⟩) :: post ∧
      (∀ p ∈ pre, |(⟨-2, 1, 0⟩ : Thruster).torque| < |p.2.torque|) ∧
      (∀ p ∈ post, |(⟨-2, 1, 0⟩ : Thruster).torque| ≤ |p.2.torque|) :=
  C6_pivot_selection [⟨5, 1, 0⟩, ⟨-2, 1, 0⟩] 1 ⟨-2, 1, 0⟩
    (by norm_num [find_smallest_mag_torque_thruster, unallocated_thrusters,
      enumFromIdx, minByAbsTorque])

/-- C7: whenever counterbalance returns a value, that value never exceeds
the incoming `remaining_torque` in absolute value: it is either
`remaining_torque` unchanged or strictly closer to zero (in exact
arithmetic the non-skip branch lands exactly on zero, never past it). -/
theorem C7_counterbalance_contraction (t : Thruster) (r r' : ℚ)
    (t' : Thruster)
    (h : t.increase_throttle_to_counterbalance r = (t', r', none)) :
    |r'| ≤ |r| ∧ (r' = r ∨ |r'| < |r|) := by
  by_cases hg : t.throttle = 1 ∨ sign t.torque = sign r
  · rw [cb_noop hg] at h
    injection h with h1 hrest
    injection hrest with h2 h3
    subst h2
    exact ⟨le_refl _, Or.inl rfl⟩
  · by_cases h0 : t.torque = 0
    · rw [cb_err hg h0] at h
      injection h with h1 hrest
      injection hrest with h2 h3
      exact absurd h3 (by simp)
    · have hne1 : t.throttle ≠ 1 := fun hc => hg (Or.inl hc)
      have hs : sign t.torque ≠ sign r := fun hc => hg (Or.inr hc)
      rw [cb_exact hne1 hs h0] at h
      injection h with h1 hrest
      injection hrest with h2 h3
      subst h2
      constructor
      · simpa using abs_nonneg r
      · by_cases hr0 : r = 0
        · exact Or.inl (by rw [hr0])
        · exact Or.inr (by simpa using abs_pos.mpr hr0)

theorem C7_counterbalance_contraction_witness :
    |(0 : ℚ)| ≤ |(-4 : ℚ)| ∧ ((0 : ℚ) = -4 ∨ |(0 : ℚ)| < |(-4 : ℚ)|) :=
  C7_counterbalance_contraction ⟨2, 1, 0⟩ (-4) 0 ⟨2, 1, 2⟩
    (by norm_num [Thruster.increase_throttle_to_counterbalance, sign,
      Thruster.current_torque])

/-- C8: no operation — counterbalance, an allocation round, or
normalization — ever changes `torque_coeff` or `thrust_coeff`; only the
throttle field mutates. -/
theorem C8_coeffs_immutable :
    (∀ (t : Thruster) (r : ℚ),
      (t.increase_throttle_to_counterbalance r).1.coeffs = t.coeffs) ∧
    (∀ reg : Registry,
      ((iterate_once reg).1).map Thruster.coeffs =
        reg.map Thruster.coeffs) ∧
    (∀ reg : Registry,
      ((normalize reg).1).map Thruster.coeffs =
        reg.map Thruster.coeffs) :=
  ⟨cb_frame, iterate_frame, normalize_frame⟩

/-- C9: counterbalance is partial at the public interface: with
`torque_coeff = 0`, `throttle < 1` and `remaining_torque < 0` the unguarded
division is reached and the call fails; under the precondition
`torque_coeff ≠ 0 ∨ sign torque_coeff = sign remaining_torque` the error
branch is unreachable. -/
theorem C9_partiality (t : Thruster) (r : ℚ) :
    (t.torque = 0 → t.throttle < 1 → r < 0 →
      t.increase_throttle_to_counterbalance r =
        (t, r, some AllocError.counterbalanceDivByZero)) ∧
    ((t.torque ≠ 0 ∨ sign t.torque = sign r) →
      (t.increase_throttle_to_counterbalance r).2.2 = none) := by
  constructor
  · intro h0 h1 hr
    apply cb_err _ h0
    intro hc
    rcases hc with hc | hc
    · exact absurd hc (ne_of_lt h1)
    · rw [h0] at hc
      rw [sign_eq_neg_one_iff.mpr hr] at hc
      rw [show sign (0 : ℚ) = 1 by norm_num [sign]] at hc
      exact absurd hc (by decide)
  · intro hpre
    by_cases hg : t.throttle = 1 ∨ sign t.torque = sign r
    · rw [cb_noop hg]
    · have hne1 : t.throttle ≠ 1 := fun hc => hg (Or.inl hc)
      have hs : sign t.torque ≠ sign r := fun hc => hg (Or.inr hc)
      have h0 : t.torque ≠ 0 := by
        rcases hpre with h0 | hc
        · exact h0
        · exact absurd hc hs
      rw [cb_exact hne1 hs h0]

theorem C9_partiality_witness :
    Thruster.increase_throttle_to_counterbalance ⟨0, 5, 0⟩ (-1) =
      (⟨0, 5, 0⟩, -1, some AllocError.counterbalanceDivByZero) ∧
    (Thruster.increase_throttle_to_counterbalance ⟨3, 5, 0⟩ (-1)).2.2 =
      none :=
  ⟨(C9_partiality ⟨0, 5, 0⟩ (-1)).1 rfl (by norm_num) (by norm_num),
    (C9_partiality ⟨3, 5, 0⟩ (-1)).2 (Or.inl (by norm_num))⟩

/-- C10: in exact arithmetic the non-no-op branch of counterbalance cancels
the remaining torque exactly (returns 0); consequently a successful
allocation round changes at most one actuator besides the pivot: the final
registry is the input with the pivot committed and at most one further
position overwritten. -/
theorem C10_exact_cancellation :
    (∀ (t : Thruster) (r : ℚ), t.throttle ≠ 1 → sign t.torque ≠ sign r →
      t.torque ≠ 0 →
      t.increase_throttle_to_counterbalance r =
        ({ t with throttle := t.throttle + |r| / |t.torque| }, 0, none)) ∧
    (∀ reg reg' : Registry, iterate_once reg = (reg', none) →
      ∃ i t, find_smallest_mag_torque_thruster reg = some (i, t) ∧
        ∃ j w, reg' = (reg.set i { t with throttle := 1 }).set j w) :=
  ⟨fun t r h1 h2 h0 => cb_exact h1 h2 h0, iterate_structure⟩

theorem C10_exact_cancellation_witness :
    Thruster.increase_throttle_to_counterbalance ⟨2, 1, 0⟩ (-4) =
      ({ torque := 2, thrust := 1,
          throttle := 0 + |(-4 : ℚ)| / |(2 : ℚ)| }, 0, none) ∧
    ∃ i t, find_smallest_mag_torque_thruster
        (mkRegistry [(-10, 5), (10, 5)]) = some (i, t) ∧
      ∃ j w, ([⟨-10, 5, 1⟩, ⟨10, 5, 1⟩] : Registry) =
        ((mkRegistry [(-10, 5), (10, 5)]).set i
          { t with throttle := 1 }).set j w :=
  ⟨C10_exact_cancellation.1 ⟨2, 1, 0⟩ (-4) (by norm_num)
      (by norm_num [sign]) (by norm_num),
    C10_exact_cancellation.2 (mkRegistry [(-10, 5), (10, 5)])
      [⟨-10, 5, 1⟩, ⟨10, 5, 1⟩]
      (by norm_num [solve, allocation_rounds, iterate_once,
    find_smallest_mag_torque_thruster, unallocated_thrusters, enumFromIdx,
    minByAbsTorque, counterbalance_walk,
    Thruster.increase_throttle_to_counterbalance, current_torque,
    Thruster.current_torque, sign, mkRegistry, normalize,
    current_max_throttle])⟩

end ThrusterCtrl
